import Mathlib

/-!
Verification of the TownTask image-processing core
(`tools/image_processor.py` and `process_cat.py`).

An image is a list of rows of RGBA pixels (the numpy `(height, width, 4)`
array, resp. the PIL pixel grid).  The numpy code operates on `uint8`
channels, so every channel sum or difference there wraps modulo 256; the
PIL code (`process_cat.py`) works on plain Python integers.  Python float
divisions of small integers are modelled by exact rational division.
-/

structure Pixel where
  r : Nat
  g : Nat
  b : Nat
  a : Nat
deriving DecidableEq

/-- The fully transparent pixel `[0, 0, 0, 0]` written by every strategy. -/
def clearPx : Pixel := ⟨0, 0, 0, 0⟩

abbrev Img := List (List Pixel)

def height (img : Img) : Nat := img.length

def rowLen (img : Img) (i : Nat) : Nat := ((img[i]?).getD []).length

def widthOf (img : Img) : Nat := rowLen img 0

/-- Pixel read `img_array[i, j]` (out-of-range reads default to `clearPx`;
the source never reads out of range). -/
def getPx (img : Img) (i j : Nat) : Pixel := (((img[i]?).getD [])[j]?).getD clearPx

/-- Pixel write `img_array[i, j] = p` (a no-op out of range, as the source
never writes out of range). -/
def setPx (img : Img) (i j : Nat) (p : Pixel) : Img :=
  img.set i (((img[i]?).getD []).set j p)

/-- The numpy arrays are rectangular: every row has the image's width. -/
def Rect (img : Img) : Prop := ∀ row ∈ img, row.length = widthOf img

instance : DecidablePred Rect := fun img => List.decidableBAll _ img

/-- Indexed map, used to express the per-pixel loops `for i ... for j ...`. -/
def mapIdxFrom (f : Nat → α → β) : Nat → List α → List β
  | _, [] => []
  | k, a :: as => f k a :: mapIdxFrom f (k + 1) as

/-- Apply `f i j` to the pixel at row `i`, column `j`, for every pixel. -/
def mapGrid (f : Nat → Nat → Pixel → Pixel) (img : Img) : Img :=
  mapIdxFrom (fun i row => mapIdxFrom (fun j p => f i j p) 0 row) 0 img

theorem length_mapIdxFrom (f : Nat → α → β) :
    ∀ k l, (mapIdxFrom f k l).length = l.length := by
  intro k l
  induction l generalizing k with
  | nil => rfl
  | cons a as ih => simp [mapIdxFrom, ih]

theorem getElem?_mapIdxFrom (f : Nat → α → β) :
    ∀ k l i, (mapIdxFrom f k l)[i]? = (l[i]?).map (f (k + i)) := by
  intro k l
  induction l generalizing k with
  | nil => intro i; simp [mapIdxFrom]
  | cons a as ih =>
    intro i
    cases i with
    | zero => simp [mapIdxFrom]
    | succ n =>
      simp only [mapIdxFrom, List.getElem?_cons_succ, ih (k + 1) n]
      have : k + 1 + n = k + (n + 1) := by omega
      rw [this]

theorem height_mapGrid (f : Nat → Nat → Pixel → Pixel) (img : Img) :
    height (mapGrid f img) = height img := by
  simp [height, mapGrid, length_mapIdxFrom]

theorem rowLen_mapGrid (f : Nat → Nat → Pixel → Pixel) (img : Img) (i : Nat) :
    rowLen (mapGrid f img) i = rowLen img i := by
  simp only [rowLen, mapGrid, getElem?_mapIdxFrom, Nat.zero_add]
  cases h : img[i]? with
  | none => simp
  | some row => simp [length_mapIdxFrom]

theorem getPx_mapGrid (f : Nat → Nat → Pixel → Pixel) (img : Img) (i j : Nat)
    (hi : i < height img) (hj : j < rowLen img i) :
    getPx (mapGrid f img) i j = f i j (getPx img i j) := by
  rcases h : img[i]? with _ | row
  · exact absurd (List.getElem?_eq_some_iff.2 ⟨hi, rfl⟩) (by simp [h])
  · have hjr : j < row.length := by simpa [rowLen, h] using hj
    rcases hr : row[j]? with _ | p
    · exact absurd (List.getElem?_eq_some_iff.2 ⟨hjr, rfl⟩) (by simp [hr])
    · simp [getPx, mapGrid, getElem?_mapIdxFrom, h, hr]

theorem mapIdxFrom_congr {f g : Nat → α → α} :
    ∀ k l, (∀ i a, f i a = g i a) → mapIdxFrom f k l = mapIdxFrom g k l := by
  intro k l h
  induction l generalizing k with
  | nil => rfl
  | cons a as ih => simp [mapIdxFrom, h, ih]

theorem mapIdxFrom_id : ∀ (k : Nat) (l : List α), mapIdxFrom (fun _ a => a) k l = l := by
  intro k l
  induction l generalizing k with
  | nil => rfl
  | cons a as ih => simp [mapIdxFrom, ih]

/-! ### rational helpers for Python float arithmetic -/

/-- Python float division of two integers, modelled exactly (the source
never divides by zero on the inputs considered here). -/
def fdiv (a b : Int) : ℚ := Rat.divInt a b

/-- Python `abs` on a rational value. -/
def qabs (x : ℚ) : ℚ := if x < 0 then -x else x

/-- Exact subtraction of two rationals, written through `Rat.divInt`
(definitionally executable; equal to `x - y`, see `qsub_eq_sub`). -/
def qsub (x y : ℚ) : ℚ :=
  Rat.divInt (x.num * (y.den : Int) - y.num * (x.den : Int)) ((x.den : Int) * (y.den : Int))

theorem fdiv_eq_div (a b : Int) : fdiv a b = (a : ℚ) / (b : ℚ) := by
  rw [fdiv, Rat.divInt_eq_div]

theorem qabs_eq_abs (x : ℚ) : qabs x = |x| := by
  unfold qabs
  split
  · exact (abs_of_neg (by assumption)).symm
  · exact (abs_of_nonneg (not_lt.1 (by assumption))).symm

theorem qsub_eq_sub (x y : ℚ) : qsub x y = x - y := by
  rw [qsub, ← Rat.divInt_sub_divInt _ _ (by exact_mod_cast x.den_nz) (by exact_mod_cast y.den_nz),
    Rat.num_divInt_den, Rat.num_divInt_den]

/-! ### uint8 arithmetic of the numpy code -/

/-- `uint8` subtraction `a - b` (wraps modulo 256).  In the numpy code
`abs(a - b)` on `uint8` operands is the identity on this wrapped value. -/
def sub8 (a b : Nat) : Nat := (((a : Int) - (b : Int)) % 256).toNat

/-- `sum(abs(a - b) for a, b in zip(seed_color, neighbor_color))`: the three
wrapped channel differences, accumulated in `uint8` (so the sum itself also
wraps modulo 256). -/
def colorDiff (p q : Pixel) : Nat :=
  (sub8 p.r q.r + sub8 p.g q.g + sub8 p.b q.b) % 256

/-- The `uint8` channel sum `r + g + b` of a pixel: wraps modulo 256. -/
def u8sum (p : Pixel) : Int := (((p.r + p.g + p.b) % 256 : Nat) : Int)

/-- `(r + g + b) / 3` on `uint8` channels: the sum wraps modulo 256 before
the float (here: rational) division. -/
def brightnessU8 (p : Pixel) : ℚ := fdiv (u8sum p) 3

/-! ### `remove_white_gray_background` -/

/-- `remove_white_gray_background(img_array, tolerance=40)`: a pixel is
cleared when `max(abs(r-g), abs(g-b), abs(r-b)) < tolerance` and
`(r+g+b)/3 > 180`, all computed on `uint8` values. -/
def remove_white_gray_background (img : Img) (tolerance : Nat) : Img :=
  mapGrid (fun _ _ p =>
    if max (sub8 p.r p.g) (max (sub8 p.g p.b) (sub8 p.r p.b)) < tolerance ∧
        brightnessU8 p > 180 then clearPx else p) img

/-! ### checkerboard detection and removal -/

/-- `is_checkerboard_block` on a 2x2 block `[[p00, p01], [p10, p11]]` (the
callers only pass full in-bounds 2x2 blocks, so the shape guard of the
source always holds here). -/
def is_checkerboard_block (p00 p01 p10 p11 : Pixel) : Bool :=
  decide (qabs (fdiv (u8sum p00 - u8sum p11) 3) < 30 ∧
    qabs (fdiv (u8sum p01 - u8sum p10) 3) < 30 ∧
    qabs (fdiv (u8sum p00 - u8sum p01) 3) > 50)

/-- `range(0, n, 2)`: the even numbers below `n`. -/
def range2 (n : Nat) : List Nat := (List.range ((n + 1) / 2)).map (fun k => 2 * k)

/-- The background mask of `remove_checkerboard_background` at `(i, j)`:
the 2x2-aligned block containing `(i, j)` exists and passes
`is_checkerboard_block`, or the pixel is very light (all channels > 220). -/
def checkerMask (img : Img) (i j : Nat) : Bool :=
  let h := height img
  let w := widthOf img
  let i0 := 2 * (i / 2)
  let j0 := 2 * (j / 2)
  (decide (i0 + 1 < h) && decide (j0 + 1 < w) &&
    is_checkerboard_block (getPx img i0 j0) (getPx img i0 (j0 + 1))
      (getPx img (i0 + 1) j0) (getPx img (i0 + 1) (j0 + 1))) ||
  (decide (220 < (getPx img i j).r) && decide (220 < (getPx img i j).g) &&
    decide (220 < (getPx img i j).b))

/-- `remove_checkerboard_background`: clear every pixel of the background
mask (checkerboard blocks plus very light pixels). -/
def remove_checkerboard_background (img : Img) : Img :=
  mapGrid (fun i j p => if checkerMask img i j then clearPx else p) img

/-! ### `detect_background_type` -/

inductive Method where
  | checkerboard
  | white_gray
  | edge_flood
deriving DecidableEq

/-- The four corner samples `img[0:10, 0:10]`, `img[0:10, -10:]`,
`img[-10:, 0:10]`, `img[-10:, -10:]` (numpy slices clamp at the borders,
which truncated subtraction models exactly). -/
def corners (img : Img) : List Img :=
  let h := height img
  let w := widthOf img
  [ (img.take 10).map (fun row => row.take 10),
    (img.take 10).map (fun row => row.drop (w - 10)),
    (img.drop (h - 10)).map (fun row => row.take 10),
    (img.drop (h - 10)).map (fun row => row.drop (w - 10)) ]

/-- `has_checkerboard_pattern(corner)`. -/
def has_checkerboard_pattern (corner : Img) : Bool :=
  let h := height corner
  let w := widthOf corner
  if h < 4 ∨ w < 4 then false
  else
    let blocks := (range2 (h - 1)).flatMap (fun i =>
      (range2 (w - 1)).filterMap (fun j =>
        if i + 1 < h ∧ j + 1 < w then some (i, j) else none))
    let alternating := blocks.countP (fun c =>
      is_checkerboard_block (getPx corner c.1 c.2) (getPx corner c.1 (c.2 + 1))
        (getPx corner (c.1 + 1) c.2) (getPx corner (c.1 + 1) (c.2 + 1)))
    decide (0 < blocks.length) &&
      decide (fdiv (alternating : Int) (blocks.length : Int) > fdiv 1 2)

/-- Number of light pixels (`r > 200 and g > 200 and b > 200`) of a corner. -/
def countLight (corner : Img) : Nat :=
  (corner.map (fun row => row.countP (fun p =>
    decide (200 < p.r) && decide (200 < p.g) && decide (200 < p.b)))).sum

/-- Number of pixels of a corner. -/
def countCells (corner : Img) : Nat := (corner.map List.length).sum

/-- `detect_background_type`: checkerboard if at least 2 corners show a
checkerboard pattern, else white_gray if more than 70% of the sampled
pixels are light, else edge_flood. -/
def detect_background_type (img : Img) : Method :=
  let cs := corners img
  if 2 ≤ cs.countP has_checkerboard_pattern then Method.checkerboard
  else if fdiv (((cs.map countLight).sum : Nat) : Int)
      (((cs.map countCells).sum : Nat) : Int) > fdiv 7 10 then Method.white_gray
  else Method.edge_flood

/-! ### `remove_background_flood_fill` -/

/-- The `for dy in [-1, 0, 1]: for dx in [-1, 0, 1]` offset pairs, in
iteration order. -/
def offsets9 : List (Int × Int) :=
  [(-1, -1), (-1, 0), (-1, 1), (0, -1), (0, 0), (0, 1), (1, -1), (1, 0), (1, 1)]

/-- All edge coordinates `(i, j)` of the grid, in the scan order of the
seeding loop. -/
def borderSeeds (h w : Nat) : List (Nat × Nat) :=
  (List.range h).flatMap (fun i =>
    (List.range w).filterMap (fun j =>
      if i = 0 ∨ i = h - 1 ∨ j = 0 ∨ j = w - 1 then some (i, j) else none))

/-- The neighbor-enqueueing loop run after a light pixel at `(y, x)` was
cleared: every in-bounds, unvisited neighbor whose (uint8-wrapped) color
difference from the seed color is below 60 is appended to the queue.
`visited` already contains `(y, x)` and `res` already has `(y, x)`
cleared, exactly as in the source. -/
def ffEnqueue (h w : Nat) (seed : Pixel) (visited : List (Nat × Nat)) (res : Img)
    (y x : Nat) : List (Nat × Nat) :=
  offsets9.filterMap (fun o =>
    let ny : Int := (y : Int) + o.1
    let nx : Int := (x : Int) + o.2
    if 0 ≤ ny ∧ ny < (h : Int) ∧ 0 ≤ nx ∧ nx < (w : Int) ∧
        (ny.toNat, nx.toNat) ∉ visited then
      if colorDiff seed (getPx res ny.toNat nx.toNat) < 60 then
        some (ny.toNat, nx.toNat)
      else none
    else none)

/-- The `while queue:` loop of `remove_background_flood_fill`, with an
explicit fuel parameter (`none` means the fuel ran out before the queue
emptied; `ffFuel` below always suffices, see the termination theorem). -/
def floodLoop (h w : Nat) : Nat → List (Nat × Nat) → List (Nat × Nat) → Img → Option Img
  | _, [], _, res => some res
  | 0, _ :: _, _, _ => none
  | fuel + 1, (y, x) :: qs, v, res =>
    if (y, x) ∈ v then floodLoop h w fuel qs v res
    else
      let p := getPx res y x
      if 180 < p.r ∧ 180 < p.g ∧ 180 < p.b then
        floodLoop h w fuel
          (qs ++ ffEnqueue h w p ((y, x) :: v) (setPx res y x clearPx) y x)
          ((y, x) :: v) (setPx res y x clearPx)
      else floodLoop h w fuel qs ((y, x) :: v) res

/-- Fuel that always suffices for `floodLoop` (proved below): ten steps per
grid cell plus one per initial seed. -/
def ffFuel (h w : Nat) : Nat := 10 * (h * w) + (borderSeeds h w).length

/-- `remove_background_flood_fill`: breadth-first flood fill seeded from
all border pixels; light pixels (all channels > 180) are cleared and
propagate to color-similar neighbors, other pixels act as walls. -/
def remove_background_flood_fill (img : Img) : Img :=
  let h := height img
  let w := widthOf img
  (floodLoop h w (ffFuel h w) (borderSeeds h w) [] img).getD img

/-! ### transparency ratio and the best-result selector -/

/-- `calculate_transparency_ratio`: transparent pixels over total pixels
(the numpy `alpha_channel.size` is `height * width`). -/
def calculate_transparency_ratio (img : Img) : ℚ :=
  fdiv (((img.map (fun row => row.countP (fun p => decide (p.a = 0)))).sum : Nat) : Int)
    (((height img * widthOf img : Nat)) : Int)

/-- Dispatch of `remove_complex_background` on an already-loaded image for
an explicitly given method (the `auto` branch runs the detector first;
`process_single_cat_image` always passes explicit methods). -/
def remove_complex_background (img : Img) : Method → Img
  | Method.checkerboard => remove_checkerboard_background img
  | Method.white_gray => remove_white_gray_background img 40
  | Method.edge_flood => remove_background_flood_fill img

/-- Transparency ratio of the result of one strategy. -/
def ratioOf (img : Img) (m : Method) : ℚ :=
  calculate_transparency_ratio (remove_complex_background img m)

/-- The acceptance band of the selector: `0.3 < transparency_ratio < 0.8`. -/
def acceptedRatio (r : ℚ) : Prop := fdiv 3 10 < r ∧ r < fdiv 8 10

instance : DecidablePred acceptedRatio := fun q =>
  inferInstanceAs (Decidable (fdiv 3 10 < q ∧ q < fdiv 8 10))

/-- One iteration of the `for method in methods:` loop of
`process_single_cat_image`: keep the best `(method, ratio)` pair so far,
replacing it when the new ratio is in the band and strictly closer to 0.5. -/
def selStep (img : Img) (best : Option (Method × ℚ)) (m : Method) : Option (Method × ℚ) :=
  if acceptedRatio (ratioOf img m) then
    match best with
    | none => some (m, ratioOf img m)
    | some (bm, br) =>
      if qabs (qsub (ratioOf img m) (fdiv 1 2)) < qabs (qsub br (fdiv 1 2)) then
        some (m, ratioOf img m)
      else some (bm, br)
  else best

/-- The method list tried by `process_single_cat_image`, in order. -/
def methodsTried : List Method := [Method.checkerboard, Method.white_gray, Method.edge_flood]

/-- The best accepted `(method, ratio)` pair, if any. -/
def pickBest (img : Img) : Option (Method × ℚ) := methodsTried.foldl (selStep img) none

/-- `process_single_cat_image`: the output image is the best accepted
strategy result, or the raw white_gray result when no strategy's ratio
lies in the band. -/
def process_single_cat_image (img : Img) : Img :=
  match pickBest img with
  | some (m, _) => remove_complex_background img m
  | none => remove_complex_background img Method.white_gray

/-! ### `create_sprite_sheet` -/

/-- `sprite_sheet.paste(frame, (x0, y0), frame)`: PIL pastes the frame at
`(x0, y0)` using the frame's own alpha as mask; on the fully transparent
canvas this keeps the canvas pixel where the frame's alpha is 0 and writes
the frame pixel elsewhere (spec section 4.8 describes the paste this way). -/
def pasteAt (sheet frame : Img) (x0 y0 : Nat) : Img :=
  mapGrid (fun y x p =>
    if y0 ≤ y ∧ y < y0 + height frame ∧ x0 ≤ x ∧ x < x0 + widthOf frame then
      let q := getPx frame (y - y0) (x - x0)
      if q.a = 0 then p else q
    else p) sheet

/-- The `for i, image_path in enumerate(image_paths):` paste loop; frame
`i` goes to column `i % columns`, row `i / columns`. -/
def pasteFrames (columns fw fh : Nat) : Nat → List Img → Img → Img
  | _, [], sheet => sheet
  | i, f :: fs, sheet =>
    pasteFrames columns fw fh (i + 1) fs
      (pasteAt sheet f ((i % columns) * fw) ((i / columns) * fh))

/-- `create_sprite_sheet(image_paths, ..., columns, frame_width,
frame_height)` on the already-loaded (and, per the source's resize step,
`fw x fh`-sized) frames: a fully transparent canvas of
`columns*fw x rows*fh` with every frame pasted at its cell. -/
def create_sprite_sheet (frames : List Img) (columns fw fh : Nat) : Img :=
  let rows := (frames.length + columns - 1) / columns
  pasteFrames columns fw fh 0 frames
    (List.replicate (rows * fh) (List.replicate (columns * fw) clearPx))

/-! ### `process_cat.py`: pixel classifier and edge cleanup -/

/-- `is_background_pixel(r, g, b, background_colors, tolerance=25)` of
`process_cat.py`.  Here the channels are plain Python integers (PIL
pixels), so `abs` and sums are exact. -/
def is_background_pixel (r g b : Nat) (background_colors : List (Nat × Nat × Nat))
    (tolerance : Int) : Bool :=
  background_colors.any (fun bg =>
    decide (|(r : Int) - (bg.1 : Int)| < tolerance) &&
    decide (|(g : Int) - (bg.2.1 : Int)| < tolerance) &&
    decide (|(b : Int) - (bg.2.2 : Int)| < tolerance)) ||
  (decide (200 < r) && decide (200 < g) && decide (200 < b) &&
    decide (max ((r : Int) - g).natAbs (max ((g : Int) - b).natAbs ((r : Int) - b).natAbs) < 30)) ||
  decide (fdiv ((r + g + b : Nat) : Int) 3 > 180)

/-- The two-rule classifier the specification describes: within tolerance
of a known background color, or average brightness above 180. -/
def is_background_pixel_two_rule (r g b : Nat) (background_colors : List (Nat × Nat × Nat))
    (tolerance : Int) : Bool :=
  background_colors.any (fun bg =>
    decide (|(r : Int) - (bg.1 : Int)| < tolerance) &&
    decide (|(g : Int) - (bg.2.1 : Int)| < tolerance) &&
    decide (|(b : Int) - (bg.2.2 : Int)| < tolerance)) ||
  decide (fdiv ((r + g + b : Nat) : Int) 3 > 180)

/-- The 8 neighbor offsets of the cleanup pass (the `dx == 0 and dy == 0`
pair is skipped by the `continue`). -/
def offsets8 : List (Int × Int) := offsets9.filter (fun o => o ≠ (0, 0))

/-- Number of transparent neighbors of interior pixel `(y, x)` in the
pre-cleanup snapshot. -/
def transparentNeighbors (img : Img) (y x : Nat) : Nat :=
  offsets8.countP (fun o =>
    decide ((getPx img ((y : Int) + o.1).toNat ((x : Int) + o.2).toNat).a = 0))

/-- `cleanup_edges`: an interior pixel with positive alpha is cleared when
at least 6 of its 8 neighbors are transparent in the snapshot and its own
channels are all above 180; reads come from the original image, writes go
to a fresh copy. -/
def cleanup_edges (img : Img) : Img :=
  let h := height img
  let w := widthOf img
  mapGrid (fun y x p =>
    if (1 ≤ y ∧ y < h - 1 ∧ 1 ≤ x ∧ x < w - 1) ∧ 0 < p.a ∧
        6 ≤ transparentNeighbors img y x ∧
        (180 < p.r ∧ 180 < p.g ∧ 180 < p.b) then clearPx else p) img

/-! ### basic lemmas about pixel access -/

theorem length_setPx (img : Img) (i j : Nat) (p : Pixel) :
    (setPx img i j p).length = img.length := by
  simp [setPx]

theorem rowLen_setPx (img : Img) (i j : Nat) (p : Pixel) (k : Nat) :
    rowLen (setPx img i j p) k = rowLen img k := by
  unfold rowLen setPx
  by_cases hik : i = k
  · subst hik
    by_cases hi : i < img.length
    · rw [List.getElem?_set_eq_of_lt _ hi]
      rcases h : img[i]? with _ | row
      · exact absurd (List.getElem?_eq_some_iff.2 ⟨hi, rfl⟩) (by simp [h])
      · simp [h]
    · rw [List.getElem?_eq_none (by simpa using hi), List.getElem?_eq_none]
      simpa using hi
  · rw [List.getElem?_set_ne hik]

theorem getPx_setPx_ne (img : Img) (i j a b : Nat) (p : Pixel)
    (h : ¬(a = i ∧ b = j)) : getPx (setPx img i j p) a b = getPx img a b := by
  unfold getPx setPx
  by_cases hia : i = a
  · subst hia
    have hbj : b ≠ j := fun hb => h ⟨rfl, hb⟩
    by_cases hi : i < img.length
    · rw [List.getElem?_set_eq_of_lt _ hi]
      rcases hr : img[i]? with _ | row
      · exact absurd (List.getElem?_eq_some_iff.2 ⟨hi, rfl⟩) (by simp [hr])
      · simp only [hr, Option.getD_some]
        rw [List.getElem?_set_ne (fun hj => hbj hj.symm)]
    · have h1 : (List.set img i (((img[i]?).getD []).set j p))[i]? = none := by
        rw [List.getElem?_eq_none]
        simpa using hi
      have h2 : img[i]? = none := by
        rw [List.getElem?_eq_none]
        simpa using hi
      rw [h1, h2]
  · rw [List.getElem?_set_ne hia]

theorem getPx_setPx_self (img : Img) (i j : Nat) (p : Pixel)
    (hi : i < height img) (hj : j < rowLen img i) :
    getPx (setPx img i j p) i j = p := by
  unfold getPx setPx
  rw [List.getElem?_set_eq_of_lt _ hi]
  rcases hr : img[i]? with _ | row
  · exact absurd (List.getElem?_eq_some_iff.2 ⟨hi, rfl⟩) (by simp [hr])
  · have hjr : j < row.length := by simpa [rowLen, hr] using hj
    simp [List.getElem?_set_eq_of_lt _ hjr]

/-! ### claim C10: the near-white rule of the pixel classifier is redundant -/

theorem brightness_of_near_white {r g b : Nat} (hr : 200 < r) (hg : 200 < g) (hb : 200 < b) :
    fdiv ((r + g + b : Nat) : Int) 3 > 180 := by
  rw [fdiv_eq_div, gt_iff_lt]
  push_cast
  rw [lt_div_iff₀ (by norm_num : (0 : ℚ) < 3)]
  have : (540 : ℚ) < (r : ℚ) + (g : ℚ) + (b : ℚ) := by
    exact_mod_cast (by omega : 540 < r + g + b)
  linarith

/-- C10: `is_background_pixel` with tolerance 25 agrees with the two-rule
classifier (near a known background color, or average brightness above
180): any pixel passing the near-white/grayscale rule (all channels above
200, pairwise differences below 30) already has average brightness above
180, so that middle rule never decides the outcome. -/
theorem is_background_pixel_eq_two_rule (r g b : Nat)
    (background_colors : List (Nat × Nat × Nat)) :
    is_background_pixel r g b background_colors 25 =
      is_background_pixel_two_rule r g b background_colors 25 := by
  unfold is_background_pixel is_background_pixel_two_rule
  rcases hB : (decide (200 < r) && decide (200 < g) && decide (200 < b) &&
      decide (max ((r : Int) - g).natAbs (max ((g : Int) - b).natAbs ((r : Int) - b).natAbs) < 30)) with _ | _
  · rw [Bool.or_false]
  · have hC : decide (fdiv ((r + g + b : Nat) : Int) 3 > 180) = true := by
      simp only [Bool.and_eq_true, decide_eq_true_eq] at hB
      exact decide_eq_true (brightness_of_near_white hB.1.1.1 hB.1.1.2 hB.1.2)
    rw [hC]
    simp

/-! ### concrete test images -/

/-- The fully white 64x64 image of spec Scenario A. -/
def white64 : Img := List.replicate 64 (List.replicate 64 (⟨255, 255, 255, 255⟩ : Pixel))

/-- The 8x8 image of spec Scenario B: four 4x4 quadrants, white where the
row-half and column-half agree (top-left, bottom-right), black elsewhere. -/
def quadImg : Img :=
  (List.range 8).map (fun i => (List.range 8).map (fun j =>
    if (decide (i < 4)) = (decide (j < 4)) then (⟨255, 255, 255, 255⟩ : Pixel)
    else (⟨0, 0, 0, 255⟩ : Pixel)))

/-- What the checkerboard strategy produces on `quadImg`: white quadrants
cleared, black quadrants untouched. -/
def quadExpected : Img :=
  (List.range 8).map (fun i => (List.range 8).map (fun j =>
    if (decide (i < 4)) = (decide (j < 4)) then clearPx else (⟨0, 0, 0, 255⟩ : Pixel)))

/-! ### claim C2: Scenario A against the actual uint8 arithmetic -/

theorem white_gray_removal_is_identity (img : Img) (tolerance : Nat) :
    remove_white_gray_background img tolerance = img := by
  have hb : ∀ p : Pixel,
      ¬ (max (sub8 p.r p.g) (max (sub8 p.g p.b) (sub8 p.r p.b)) < tolerance ∧
        brightnessU8 p > 180) := by
    rintro p ⟨-, hbr⟩
    have h1 : ((p.r + p.g + p.b) % 256 : ℕ) ≤ 255 :=
      Nat.le_of_lt_succ (Nat.mod_lt _ (by norm_num))
    have h2 : ((u8sum p : Int) : ℚ) ≤ 255 := by
      unfold u8sum
      exact_mod_cast h1
    have h3 : brightnessU8 p ≤ 255 / 3 := by
      unfold brightnessU8
      rw [fdiv_eq_div]
      exact (div_le_div_iff_of_pos_right (by norm_num : (0 : ℚ) < 3)).2 h2
    rw [gt_iff_lt] at hbr
    norm_num at h3
    linarith
  unfold remove_white_gray_background mapGrid
  rw [mapIdxFrom_congr 0 img (fun i row => ?_), mapIdxFrom_id]
  rw [mapIdxFrom_congr 0 row (fun j p => if_neg (hb p)), mapIdxFrom_id]

/-- C2 (code bug): on the all-white 64x64 image the White/Gray strategy
changes nothing — the uint8 channel sum wraps to 253, so the brightness
test `(r+g+b)/3 > 180` compares 253/3 with 180 and fails — hence its
transparency ratio is 0, not the 1.0 the claim states, and the selector's
unconditional white_gray fallback is the fully opaque original. -/
theorem white_gray_scenarioA_ratio_zero :
    remove_complex_background white64 Method.white_gray = white64 ∧
    ratioOf white64 Method.white_gray = 0 ∧
    ¬ acceptedRatio (ratioOf white64 Method.white_gray) ∧
    brightnessU8 (⟨255, 255, 255, 255⟩ : Pixel) = fdiv 253 3 := by
  have hid : remove_complex_background white64 Method.white_gray = white64 :=
    white_gray_removal_is_identity white64 40
  refine ⟨hid, ?_, ?_, by decide⟩
  · unfold ratioOf
    rw [hid]
    decide
  · unfold ratioOf
    rw [hid]
    decide

/-! ### claim C4: Scenario B against the detector and the strategy -/

/-- C4 (counterexample): the Background-Type Detector does not classify
the quadrant image as checkerboard — every 2x2-aligned block is uniform,
so no corner sample shows a checkerboard pattern, and only half of the
sampled pixels are light. -/
theorem quad_image_not_detected_checkerboard :
    (detect_background_type quadImg = Method.checkerboard) = False :=
  eq_false (by decide)

/-- C4 (amended): on the 8x8 quadrant image the detector answers
edge_flood (not checkerboard), while the Checkerboard Removal strategy
does behave as the claim says: it clears every white-quadrant pixel (all
channels above 220) and leaves every black-quadrant pixel untouched and
opaque. -/
theorem quad_image_detect_and_checkerboard_removal :
    detect_background_type quadImg = Method.edge_flood ∧
    remove_checkerboard_background quadImg = quadExpected := by
  exact ⟨by decide, by decide⟩

/-! ### claim C3: the flood-fill propagation test -/

theorem rowLen_eq_widthOf {img : Img} (hrect : Rect img) {i : Nat} (hi : i < height img) :
    rowLen img i = widthOf img := by
  unfold rowLen
  rcases h : img[i]? with _ | row
  · exact absurd (List.getElem?_eq_some_iff.2 ⟨hi, rfl⟩) (by simp [h])
  · obtain ⟨hlt, heq⟩ := List.getElem?_eq_some_iff.1 h
    exact hrect row (heq ▸ List.getElem_mem hlt)

/-- The 3x3 image of spec Scenario E: a single opaque black pixel
surrounded by 8 transparent pixels. -/
def scenarioE : Img :=
  (List.range 3).map (fun i => (List.range 3).map (fun j =>
    if i = 1 ∧ j = 1 then (⟨0, 0, 0, 255⟩ : Pixel) else clearPx))

/-- C6: `cleanup_edges` clears an interior pixel that has positive alpha
exactly when at least 6 of its 8 neighbors are transparent in the
pre-cleanup snapshot and its own channels are all above 180; in
particular the opaque black pixel of Scenario E, though surrounded by 8
transparent neighbors, is kept opaque because its brightness test fails. -/
theorem cleanup_edges_clears_iff :
    (∀ (img : Img) (y x : Nat), Rect img →
      1 ≤ y → y < height img - 1 → 1 ≤ x → x < widthOf img - 1 →
      0 < (getPx img y x).a →
      (getPx (cleanup_edges img) y x = clearPx ↔
        (6 ≤ transparentNeighbors img y x ∧
          180 < (getPx img y x).r ∧ 180 < (getPx img y x).g ∧ 180 < (getPx img y x).b))) ∧
    getPx (cleanup_edges scenarioE) 1 1 = ⟨0, 0, 0, 255⟩ := by
  constructor
  · intro img y x hrect hy1 hy2 hx1 hx2 ha
    have hih : y < height img := by omega
    have hjw : x < rowLen img y := by
      rw [rowLen_eq_widthOf hrect (by omega)]
      omega
    have hmap : getPx (cleanup_edges img) y x =
        (if (1 ≤ y ∧ y < height img - 1 ∧ 1 ≤ x ∧ x < widthOf img - 1) ∧
            0 < (getPx img y x).a ∧ 6 ≤ transparentNeighbors img y x ∧
            (180 < (getPx img y x).r ∧ 180 < (getPx img y x).g ∧ 180 < (getPx img y x).b)
          then clearPx else getPx img y x) :=
      getPx_mapGrid _ img y x hih hjw
    rw [hmap]
    by_cases hcond : (1 ≤ y ∧ y < height img - 1 ∧ 1 ≤ x ∧ x < widthOf img - 1) ∧
        0 < (getPx img y x).a ∧ 6 ≤ transparentNeighbors img y x ∧
        (180 < (getPx img y x).r ∧ 180 < (getPx img y x).g ∧ 180 < (getPx img y x).b)
    · rw [if_pos hcond]
      exact iff_of_true rfl ⟨hcond.2.2.1, hcond.2.2.2⟩
    · rw [if_neg hcond]
      refine iff_of_false (fun hclear => ?_) (fun hr => hcond ⟨⟨hy1, hy2, hx1, hx2⟩, ha, hr.1, hr.2⟩)
      rw [hclear] at ha
      exact absurd ha (by decide)
  · decide

/-- Closed instance of C6 obtained from the theorem: the Scenario E
center pixel is not cleared. -/
theorem cleanup_edges_clears_iff_witness :
    (getPx (cleanup_edges scenarioE) 1 1 = clearPx) = False := by
  apply eq_false
  intro hclear
  have h := (cleanup_edges_clears_iff.1 scenarioE 1 1 (by decide) (by decide) (by decide)
    (by decide) (by decide) (by decide)).1 hclear
  exact absurd h.2.1 (by decide)

/-! ### unfolding lemmas for the flood-fill loop -/

theorem floodLoop_nil (h w fuel : Nat) (v : List (Nat × Nat)) (res : Img) :
    floodLoop h w fuel [] v res = some res := by
  cases fuel <;> rfl

theorem floodLoop_zero (h w y x : Nat) (qs v : List (Nat × Nat)) (res : Img) :
    floodLoop h w 0 ((y, x) :: qs) v res = none := rfl

theorem floodLoop_succ (h w fuel y x : Nat) (qs v : List (Nat × Nat)) (res : Img) :
    floodLoop h w (fuel + 1) ((y, x) :: qs) v res =
      if (y, x) ∈ v then floodLoop h w fuel qs v res
      else
        if 180 < (getPx res y x).r ∧ 180 < (getPx res y x).g ∧ 180 < (getPx res y x).b then
          floodLoop h w fuel
            (qs ++ ffEnqueue h w (getPx res y x) ((y, x) :: v) (setPx res y x clearPx) y x)
            ((y, x) :: v) (setPx res y x clearPx)
        else floodLoop h w fuel qs ((y, x) :: v) res := rfl

/-! ### claim C8: the strategies never change the image dimensions -/

/-- Two images have the same dimensions: equal height, and rows of equal
length throughout. -/
def sameShape (a b : Img) : Prop := a.length = b.length ∧ ∀ i, rowLen a i = rowLen b i

theorem floodLoop_shape (h w : Nat) :
    ∀ fuel (q v : List (Nat × Nat)) (res r : Img),
      floodLoop h w fuel q v res = some r → sameShape r res := by
  intro fuel
  induction fuel with
  | zero =>
    intro q v res r hsome
    rcases q with _ | ⟨⟨y, x⟩, qs⟩
    · rw [floodLoop_nil] at hsome
      cases hsome
      exact ⟨rfl, fun i => rfl⟩
    · rw [floodLoop_zero] at hsome
      cases hsome
  | succ fuel ih =>
    intro q v res r hsome
    rcases q with _ | ⟨⟨y, x⟩, qs⟩
    · rw [floodLoop_nil] at hsome
      cases hsome
      exact ⟨rfl, fun i => rfl⟩
    · rw [floodLoop_succ] at hsome
      by_cases hv : (y, x) ∈ v
      · rw [if_pos hv] at hsome
        exact ih qs v res r hsome
      · rw [if_neg hv] at hsome
        by_cases hl : 180 < (getPx res y x).r ∧ 180 < (getPx res y x).g ∧
            180 < (getPx res y x).b
        · rw [if_pos hl] at hsome
          obtain ⟨h1, h2⟩ := ih _ _ _ r hsome
          exact ⟨h1.trans (length_setPx res y x clearPx),
            fun i => (h2 i).trans (rowLen_setPx res y x clearPx i)⟩
        · rw [if_neg hl] at hsome
          exact ih qs _ res r hsome

/-- C8: each of the three background-removal strategies returns an image
of exactly the dimensions of its input. -/
theorem strategies_preserve_dimensions (img : Img) :
    sameShape (remove_checkerboard_background img) img ∧
    sameShape (remove_white_gray_background img 40) img ∧
    sameShape (remove_background_flood_fill img) img := by
  refine ⟨⟨height_mapGrid _ img, fun i => rowLen_mapGrid _ img i⟩,
    ⟨height_mapGrid _ img, fun i => rowLen_mapGrid _ img i⟩, ?_⟩
  show sameShape ((floodLoop (height img) (widthOf img) (ffFuel (height img) (widthOf img))
    (borderSeeds (height img) (widthOf img)) [] img).getD img) img
  rcases hres : floodLoop (height img) (widthOf img) (ffFuel (height img) (widthOf img))
      (borderSeeds (height img) (widthOf img)) [] img with _ | r
  · exact ⟨rfl, fun i => rfl⟩
  · rw [Option.getD_some]
    exact floodLoop_shape _ _ _ _ _ _ _ hres

/-! ### claim C9: the flood-fill loop terminates -/

theorem mem_borderSeeds {h w : Nat} {c : Nat × Nat} :
    c ∈ borderSeeds h w ↔
      c.1 < h ∧ c.2 < w ∧ (c.1 = 0 ∨ c.1 = h - 1 ∨ c.2 = 0 ∨ c.2 = w - 1) := by
  unfold borderSeeds
  simp only [List.mem_flatMap, List.mem_filterMap, List.mem_range]
  constructor
  · rintro ⟨i, hi, j, hj, hopt⟩
    by_cases hc : i = 0 ∨ i = h - 1 ∨ j = 0 ∨ j = w - 1
    · rw [if_pos hc] at hopt
      cases hopt
      exact ⟨hi, hj, hc⟩
    · rw [if_neg hc] at hopt
      cases hopt
  · rintro ⟨h1, h2, h3⟩
    exact ⟨c.1, h1, c.2, h2, by rw [if_pos h3]⟩

/-- Every coordinate the enqueue loop appends is in bounds, not yet
visited, and one of the 8 (or, formally, 9) surrounding cells of the
popped pixel. -/
theorem mem_ffEnqueue {h w : Nat} {seed : Pixel} {visited : List (Nat × Nat)} {res : Img}
    {y x : Nat} {d : Nat × Nat} (hd : d ∈ ffEnqueue h w seed visited res y x) :
    d.1 < h ∧ d.2 < w ∧ d ∉ visited ∧
      (d.1 = y ∨ d.1 + 1 = y ∨ d.1 = y + 1) ∧ (d.2 = x ∨ d.2 + 1 = x ∨ d.2 = x + 1) := by
  unfold ffEnqueue at hd
  rw [List.mem_filterMap] at hd
  obtain ⟨o, ho, hopt⟩ := hd
  simp only [offsets9, List.mem_cons, List.not_mem_nil, or_false] at ho
  rcases ho with rfl | rfl | rfl | rfl | rfl | rfl | rfl | rfl | rfl <;>
  · simp only at hopt
    split_ifs at hopt with h1 h2 <;> cases hopt
    obtain ⟨hny0, hnyh, hnx0, hnxw, hnv⟩ := h1
    exact ⟨by omega, by omega, hnv, by omega, by omega⟩

/-- The grid of all pixel coordinates. -/
def gridCells (h w : Nat) : Finset (Nat × Nat) := Finset.range h ×ˢ Finset.range w

/-- The number of grid cells not yet marked visited (the termination
measure of the flood fill, together with the queue length). -/
def unvisCard (h w : Nat) (v : List (Nat × Nat)) : Nat :=
  ((gridCells h w).filter (fun c => c ∉ v)).card

theorem unvisCard_filter_mono (h w : Nat) (v : List (Nat × Nat)) (c : Nat × Nat) :
    ((gridCells h w).filter (fun d => d ∉ c :: v)) ⊆
      ((gridCells h w).filter (fun d => d ∉ v)) := by
  intro d hd
  rw [Finset.mem_filter] at hd ⊢
  exact ⟨hd.1, fun hv => hd.2 (List.mem_cons_of_mem _ hv)⟩

theorem unvisCard_cons_lt {h w : Nat} {v : List (Nat × Nat)} {c : Nat × Nat}
    (hgrid : c.1 < h ∧ c.2 < w) (hnv : c ∉ v) :
    unvisCard h w (c :: v) < unvisCard h w v := by
  apply Finset.card_lt_card
  rw [Finset.ssubset_iff_of_subset (unvisCard_filter_mono h w v c)]
  refine ⟨c, ?_, ?_⟩
  · rw [Finset.mem_filter]
    refine ⟨?_, hnv⟩
    rw [gridCells, Finset.mem_product]
    exact ⟨Finset.mem_range.2 hgrid.1, Finset.mem_range.2 hgrid.2⟩
  · rw [Finset.mem_filter]
    rintro ⟨-, habs⟩
    exact habs (List.mem_cons_self c v)

theorem unvisCard_nil_le (h w : Nat) : unvisCard h w [] ≤ h * w := by
  calc unvisCard h w [] ≤ (gridCells h w).card := Finset.card_filter_le _ _
  _ = h * w := by rw [gridCells, Finset.card_product, Finset.card_range, Finset.card_range]

theorem ffEnqueue_length_le (h w : Nat) (seed : Pixel) (visited : List (Nat × Nat))
    (res : Img) (y x : Nat) :
    (ffEnqueue h w seed visited res y x).length ≤ 9 := by
  unfold ffEnqueue
  simpa using List.length_filterMap_le _ offsets9

/-- The loop returns within the measure bound: ten units of fuel per
unvisited grid cell plus one per queue entry always suffice, because a
pop either discards a visited cell (queue shrinks) or newly visits a cell
(at most 9 enqueues against 10 freed units). -/
theorem floodLoop_total (h w : Nat) :
    ∀ fuel (q v : List (Nat × Nat)) (res : Img),
      (∀ c ∈ q, c.1 < h ∧ c.2 < w) →
      10 * unvisCard h w v + q.length ≤ fuel →
      ∃ r, floodLoop h w fuel q v res = some r := by
  intro fuel
  induction fuel with
  | zero =>
    intro q v res hq hfuel
    rcases q with _ | ⟨⟨y, x⟩, qs⟩
    · exact ⟨res, floodLoop_nil h w 0 v res⟩
    · simp only [List.length_cons] at hfuel
      omega
  | succ fuel ih =>
    intro q v res hq hfuel
    rcases q with _ | ⟨⟨y, x⟩, qs⟩
    · exact ⟨res, floodLoop_nil h w _ v res⟩
    · rw [floodLoop_succ]
      simp only [List.length_cons] at hfuel
      by_cases hv : (y, x) ∈ v
      · rw [if_pos hv]
        refine ih qs v res (fun c hc => hq c (List.mem_cons_of_mem _ hc)) (by omega)
      · rw [if_neg hv]
        have hyx : (y, x).1 < h ∧ (y, x).2 < w := hq _ (List.mem_cons_self _ _)
        have hlt : unvisCard h w ((y, x) :: v) < unvisCard h w v := unvisCard_cons_lt hyx hv
        by_cases hl : 180 < (getPx res y x).r ∧ 180 < (getPx res y x).g ∧
            180 < (getPx res y x).b
        · rw [if_pos hl]
          refine ih _ _ _ ?_ ?_
          · intro c hc
            rcases List.mem_append.1 hc with hc | hc
            · exact hq c (List.mem_cons_of_mem _ hc)
            · have hm := mem_ffEnqueue hc
              exact ⟨hm.1, hm.2.1⟩
          · have hlen := ffEnqueue_length_le h w (getPx res y x) ((y, x) :: v)
              (setPx res y x clearPx) y x
            rw [List.length_append]
            omega
        · rw [if_neg hl]
          exact ih qs _ res (fun c hc => hq c (List.mem_cons_of_mem _ hc)) (by omega)

/-- C9: on every image the flood-fill loop empties its queue within the
`ffFuel` bound (the visited marking grows monotonically and every cell is
expanded at most once), and `remove_background_flood_fill` returns that
completed result. -/
theorem flood_fill_terminates (img : Img) :
    ∃ r, floodLoop (height img) (widthOf img) (ffFuel (height img) (widthOf img))
        (borderSeeds (height img) (widthOf img)) [] img = some r ∧
      remove_background_flood_fill img = r := by
  obtain ⟨r, hr⟩ := floodLoop_total (height img) (widthOf img)
    (ffFuel (height img) (widthOf img)) (borderSeeds (height img) (widthOf img)) [] img
    (fun c hc => ⟨(mem_borderSeeds.1 hc).1, (mem_borderSeeds.1 hc).2.1⟩)
    (by
      have := unvisCard_nil_le (height img) (widthOf img)
      unfold ffFuel
      omega)
  refine ⟨r, hr, ?_⟩
  show (floodLoop (height img) (widthOf img) (ffFuel (height img) (widthOf img))
    (borderSeeds (height img) (widthOf img)) [] img).getD img = r
  rw [hr, Option.getD_some]

/-! ### claim C5: walled-off light pixels are never modified -/

/-- A pixel is "light": all RGB channels above 180 (the flood-fill
propagation test; anything else acts as a wall). -/
def isLightPx (p : Pixel) : Prop := 180 < p.r ∧ 180 < p.g ∧ 180 < p.b

instance : DecidablePred isLightPx := fun p =>
  inferInstanceAs (Decidable (180 < p.r ∧ 180 < p.g ∧ 180 < p.b))

/-- Cell `d` is one of the 8 neighbors of cell `c`. -/
def adj8 (c d : Nat × Nat) : Prop :=
  c ≠ d ∧ (c.1 = d.1 ∨ c.1 + 1 = d.1 ∨ d.1 + 1 = c.1) ∧
    (c.2 = d.2 ∨ c.2 + 1 = d.2 ∨ d.2 + 1 = c.2)

/-- There is an 8-connected path from the image border to this cell all
of whose pixels are light: the cell is a light border cell, or a light
in-bounds neighbor of such a connected cell.  `¬ LightConn img c` says
that every 8-connected path from `c` to the border passes through a
pixel with some channel at most 180 (a wall). -/
inductive LightConn (img : Img) : Nat × Nat → Prop
  | border (c : Nat × Nat) :
      c.1 < height img → c.2 < widthOf img →
      (c.1 = 0 ∨ c.1 = height img - 1 ∨ c.2 = 0 ∨ c.2 = widthOf img - 1) →
      isLightPx (getPx img c.1 c.2) → LightConn img c
  | step (c d : Nat × Nat) :
      LightConn img c → adj8 c d →
      d.1 < height img → d.2 < widthOf img →
      isLightPx (getPx img d.1 d.2) → LightConn img d

/-- The safety invariant of the flood-fill loop: unvisited cells still
hold their original pixel, every modified cell is light-connected, and
every queued cell is in bounds and is a border cell or a neighbor of a
light-connected cell. -/
structure FloodInv (img : Img) (q v : List (Nat × Nat)) (res : Img) : Prop where
  unvis : ∀ y x, (y, x) ∉ v → getPx res y x = getPx img y x
  changed : ∀ y x, getPx res y x ≠ getPx img y x → LightConn img (y, x)
  queue : ∀ c ∈ q, c.1 < height img ∧ c.2 < widthOf img ∧
    ((c.1 = 0 ∨ c.1 = height img - 1 ∨ c.2 = 0 ∨ c.2 = widthOf img - 1) ∨
      ∃ d, LightConn img d ∧ adj8 d c)

theorem floodLoop_sound (img : Img) :
    ∀ fuel (q v : List (Nat × Nat)) (res r : Img),
      FloodInv img q v res →
      floodLoop (height img) (widthOf img) fuel q v res = some r →
      ∀ y x, getPx r y x ≠ getPx img y x → LightConn img (y, x) := by
  intro fuel
  induction fuel with
  | zero =>
    intro q v res r hinv hsome
    rcases q with _ | ⟨⟨y, x⟩, qs⟩
    · rw [floodLoop_nil] at hsome
      cases hsome
      exact hinv.changed
    · rw [floodLoop_zero] at hsome
      cases hsome
  | succ fuel ih =>
    intro q v res r hinv hsome
    rcases q with _ | ⟨⟨y, x⟩, qs⟩
    · rw [floodLoop_nil] at hsome
      cases hsome
      exact hinv.changed
    · rw [floodLoop_succ] at hsome
      by_cases hv : (y, x) ∈ v
      · rw [if_pos hv] at hsome
        exact ih qs v res r
          ⟨hinv.unvis, hinv.changed, fun c hc => hinv.queue c (List.mem_cons_of_mem _ hc)⟩
          hsome
      · rw [if_neg hv] at hsome
        by_cases hl : 180 < (getPx res y x).r ∧ 180 < (getPx res y x).g ∧
            180 < (getPx res y x).b
        · rw [if_pos hl] at hsome
          have hpx : getPx res y x = getPx img y x := hinv.unvis y x hv
          have hlight : isLightPx (getPx img y x) := by
            rw [← hpx]
            exact hl
          obtain ⟨hyh, hxw, hsrc⟩ := hinv.queue (y, x) (List.mem_cons_self _ _)
          have hconn : LightConn img (y, x) := by
            rcases hsrc with hb | ⟨d, hdconn, hadj⟩
            · exact LightConn.border (y, x) hyh hxw hb hlight
            · exact LightConn.step d (y, x) hdconn hadj hyh hxw hlight
          refine ih _ _ _ r ⟨?_, ?_, ?_⟩ hsome
          · intro a b hab
            have hne : ¬(a = y ∧ b = x) := by
              rintro ⟨rfl, rfl⟩
              exact hab (List.mem_cons_self _ _)
            rw [getPx_setPx_ne res y x a b clearPx hne]
            exact hinv.unvis a b (fun hmem => hab (List.mem_cons_of_mem _ hmem))
          · intro a b hab
            by_cases hco : a = y ∧ b = x
            · rcases hco with ⟨rfl, rfl⟩
              exact hconn
            · rw [getPx_setPx_ne res y x a b clearPx hco] at hab
              exact hinv.changed a b hab
          · intro c hc
            rcases List.mem_append.1 hc with hc | hc
            · exact hinv.queue c (List.mem_cons_of_mem _ hc)
            · obtain ⟨hmh, hmw, hmnv, hm1, hm2⟩ := mem_ffEnqueue hc
              have hne : (y, x) ≠ c := by
                rintro rfl
                exact hmnv (List.mem_cons_self _ _)
              exact ⟨hmh, hmw, Or.inr ⟨(y, x), hconn, hne, by omega, by omega⟩⟩
        · rw [if_neg hl] at hsome
          refine ih qs ((y, x) :: v) res r ⟨?_, hinv.changed,
            fun c hc => hinv.queue c (List.mem_cons_of_mem _ hc)⟩ hsome
          intro a b hab
          exact hinv.unvis a b (fun hmem => hab (List.mem_cons_of_mem _ hmem))

/-- C5: a light pixel of the grid that is not light-connected to the
border — every 8-connected path from it to a border pixel passes through
a wall pixel — keeps its original value under the edge flood fill. -/
theorem flood_fill_respects_walls (img : Img) (y x : Nat)
    (hy : y < height img) (hx : x < widthOf img)
    (hlight : isLightPx (getPx img y x))
    (hnc : ¬ LightConn img (y, x)) :
    getPx (remove_background_flood_fill img) y x = getPx img y x := by
  obtain ⟨r, hr, hre⟩ := flood_fill_terminates img
  rw [hre]
  by_contra hne
  refine hnc (floodLoop_sound img _ _ _ _ r ⟨fun a b _ => rfl, ?_, ?_⟩ hr y x hne)
  · intro a b hab
    exact absurd rfl hab
  · intro c hc
    obtain ⟨h1, h2, h3⟩ := mem_borderSeeds.1 hc
    exact ⟨h1, h2, Or.inl h3⟩

/-- The 3x3 image with a dark ring around a single light center pixel. -/
def ringImg : Img :=
  (List.range 3).map (fun i => (List.range 3).map (fun j =>
    if i = 1 ∧ j = 1 then (⟨255, 255, 255, 255⟩ : Pixel) else (⟨0, 0, 0, 255⟩ : Pixel)))

theorem ringImg_no_lightconn : ∀ c, ¬ LightConn ringImg c := by
  have hd : ∀ a, a < 3 → ∀ b, b < 3 → isLightPx (getPx ringImg a b) → a = 1 ∧ b = 1 := by
    decide
  intro c hc
  induction hc with
  | border c h1 h2 h3 h4 =>
    have hh : height ringImg = 3 := rfl
    have hw : widthOf ringImg = 3 := rfl
    rw [hh] at h1 h3
    rw [hw] at h2 h3
    have h11 := hd c.1 h1 c.2 h2 h4
    omega
  | step c d hc hadj h1 h2 h4 ih => exact ih

/-- Closed instance of C5: the light center of the ring image is not
light-connected (its only neighbors are the dark ring), so the flood fill
leaves it at its original white value. -/
theorem flood_fill_respects_walls_witness :
    getPx (remove_background_flood_fill ringImg) 1 1 = ⟨255, 255, 255, 255⟩ := by
  have h := flood_fill_respects_walls ringImg 1 1 (by decide) (by decide) (by decide)
    (ringImg_no_lightconn (1, 1))
  rw [h]
  decide

/-! ### claim C1: the best-result selector -/

theorem selStep_not_acc {img : Img} {m : Method} (b : Option (Method × ℚ))
    (h : ¬ acceptedRatio (ratioOf img m)) : selStep img b m = b := by
  unfold selStep
  rw [if_neg h]

theorem selStep_acc_none {img : Img} {m : Method} (h : acceptedRatio (ratioOf img m)) :
    selStep img none m = some (m, ratioOf img m) := by
  unfold selStep
  rw [if_pos h]

theorem selStep_acc_some {img : Img} {m bm : Method} {br : ℚ}
    (h : acceptedRatio (ratioOf img m)) :
    selStep img (some (bm, br)) m =
      if qabs (qsub (ratioOf img m) (fdiv 1 2)) < qabs (qsub br (fdiv 1 2)) then
        some (m, ratioOf img m)
      else some (bm, br) := by
  unfold selStep
  rw [if_pos h]

/-- Behaviour of the selector's fold over any method list: a produced
pair carries its own strategy's accepted ratio and minimizes the
distance to 0.5 among accepted candidates (ties keep the earlier
method); `none` comes out exactly when nothing was accepted. -/
theorem selFold_spec (img : Img) :
    ∀ (ms : List Method) (b : Option (Method × ℚ)),
      (∀ p, b = some p → p.2 = ratioOf img p.1 ∧ acceptedRatio p.2) →
      (∀ p, ms.foldl (selStep img) b = some p →
        (p.2 = ratioOf img p.1 ∧ acceptedRatio p.2) ∧
        (∀ m ∈ ms, acceptedRatio (ratioOf img m) →
          qabs (qsub p.2 (fdiv 1 2)) ≤ qabs (qsub (ratioOf img m) (fdiv 1 2))) ∧
        (∀ s, b = some s → qabs (qsub p.2 (fdiv 1 2)) ≤ qabs (qsub s.2 (fdiv 1 2))) ∧
        (p.1 ∈ ms ∨ b = some p)) ∧
      (ms.foldl (selStep img) b = none →
        b = none ∧ ∀ m ∈ ms, ¬ acceptedRatio (ratioOf img m)) := by
  intro ms
  induction ms with
  | nil =>
    intro b hb
    constructor
    · intro p hp
      rw [List.foldl_nil] at hp
      refine ⟨hb p hp, by simp, ?_, Or.inr hp⟩
      intro s hs
      rw [hp] at hs
      cases hs
      exact le_refl _
    · intro hnone
      rw [List.foldl_nil] at hnone
      exact ⟨hnone, by simp⟩
  | cons m ms ih =>
    intro b hb
    rw [List.foldl_cons]
    have hb2 : ∀ p, selStep img b m = some p →
        p.2 = ratioOf img p.1 ∧ acceptedRatio p.2 := by
      intro p hp
      by_cases hacc : acceptedRatio (ratioOf img m)
      · rcases b with _ | ⟨bm, br⟩
        · rw [selStep_acc_none hacc] at hp
          cases hp
          exact ⟨rfl, hacc⟩
        · rw [selStep_acc_some hacc] at hp
          split_ifs at hp
          · cases hp
            exact ⟨rfl, hacc⟩
          · cases hp
            exact hb _ rfl
      · rw [selStep_not_acc b hacc] at hp
        exact hb p hp
    constructor
    · intro p hp
      obtain ⟨hbasic, hmin, hlink, hmem⟩ := (ih (selStep img b m) hb2).1 p hp
      refine ⟨hbasic, ?_, ?_, ?_⟩
      · intro m' hm' hacc'
        rcases List.mem_cons.1 hm' with rfl | hm'
        · rcases b with _ | ⟨bm, br⟩
          · exact hlink (m', ratioOf img m') (selStep_acc_none hacc')
          · by_cases hcmp : qabs (qsub (ratioOf img m') (fdiv 1 2)) < qabs (qsub br (fdiv 1 2))
            · exact hlink (m', ratioOf img m') (by rw [selStep_acc_some hacc', if_pos hcmp])
            · exact le_trans (hlink (bm, br) (by rw [selStep_acc_some hacc', if_neg hcmp]))
                (not_lt.1 hcmp)
        · exact hmin m' hm' hacc'
      · intro s hs
        by_cases hacc : acceptedRatio (ratioOf img m)
        · rcases s with ⟨sm, sr⟩
          by_cases hcmp : qabs (qsub (ratioOf img m) (fdiv 1 2)) < qabs (qsub sr (fdiv 1 2))
          · exact le_trans (hlink (m, ratioOf img m)
              (by rw [hs, selStep_acc_some hacc, if_pos hcmp])) (le_of_lt hcmp)
          · exact hlink (sm, sr) (by rw [hs, selStep_acc_some hacc, if_neg hcmp])
        · refine hlink s ?_
          rw [selStep_not_acc b hacc, hs]
      · rcases hmem with hmem | hbp
        · exact Or.inl (List.mem_cons_of_mem _ hmem)
        · by_cases hacc : acceptedRatio (ratioOf img m)
          · rcases b with _ | ⟨bm, br⟩
            · rw [selStep_acc_none hacc] at hbp
              cases hbp
              exact Or.inl (List.mem_cons_self _ _)
            · rw [selStep_acc_some hacc] at hbp
              split_ifs at hbp
              · cases hbp
                exact Or.inl (List.mem_cons_self _ _)
              · cases hbp
                exact Or.inr rfl
          · rw [selStep_not_acc b hacc] at hbp
            exact Or.inr hbp
    · intro hnone
      obtain ⟨hb'none, hall⟩ := (ih (selStep img b m) hb2).2 hnone
      by_cases hacc : acceptedRatio (ratioOf img m)
      · exfalso
        rcases b with _ | ⟨bm, br⟩
        · rw [selStep_acc_none hacc] at hb'none
          cases hb'none
        · rw [selStep_acc_some hacc] at hb'none
          split_ifs at hb'none <;> cases hb'none
      · rw [selStep_not_acc b hacc] at hb'none
        refine ⟨hb'none, ?_⟩
        intro m' hm'
        rcases List.mem_cons.1 hm' with rfl | hm'
        · exact hacc
        · exact hall m' hm'

/-- C1: for every image, `process_single_cat_image` accepts a strategy
only when its transparency ratio lies strictly between 0.3 and 0.8,
picks among accepted candidates one whose ratio is closest to 0.5 (ties
keep the earlier method), and outputs that strategy's result; the
selector comes out empty exactly when no strategy's ratio is in the
band, and only then does it return the raw white_gray result, with no
condition on that result's ratio. -/
theorem process_single_cat_image_selector (img : Img) :
    (∀ m r, pickBest img = some (m, r) →
      r = ratioOf img m ∧ acceptedRatio r ∧ m ∈ methodsTried ∧
      (∀ m' ∈ methodsTried, acceptedRatio (ratioOf img m') →
        qabs (qsub r (fdiv 1 2)) ≤ qabs (qsub (ratioOf img m') (fdiv 1 2))) ∧
      process_single_cat_image img = remove_complex_background img m) ∧
    (pickBest img = none → ∀ m' ∈ methodsTried, ¬ acceptedRatio (ratioOf img m')) ∧
    ((∀ m' ∈ methodsTried, ¬ acceptedRatio (ratioOf img m')) →
      pickBest img = none ∧
      process_single_cat_image img = remove_complex_background img Method.white_gray) := by
  have hfold := selFold_spec img methodsTried none (by intro p hp; cases hp)
  refine ⟨?_, ?_, ?_⟩
  · intro m r hp
    obtain ⟨hbasic, hmin, -, hmem⟩ := hfold.1 (m, r) hp
    have hm : m ∈ methodsTried := by
      rcases hmem with hmem | hmem
      · exact hmem
      · cases hmem
    refine ⟨hbasic.1, hbasic.2, hm, hmin, ?_⟩
    show (match pickBest img with
      | some (m, _) => remove_complex_background img m
      | none => remove_complex_background img Method.white_gray) = _
    rw [hp]
  · intro hnone
    exact (hfold.2 hnone).2
  · intro hall
    have hnone : pickBest img = none := by
      rcases hres : pickBest img with _ | ⟨m, r⟩
      · rfl
      · obtain ⟨hbasic, -, -, hmem⟩ := hfold.1 (m, r) hres
        have hm : m ∈ methodsTried := by
          rcases hmem with hmem | hmem
          · exact hmem
          · cases hmem
        exact absurd (hbasic.1 ▸ hbasic.2) (hall m hm)
    refine ⟨hnone, ?_⟩
    show (match pickBest img with
      | some (m, _) => remove_complex_background img m
      | none => remove_complex_background img Method.white_gray) = _
    rw [hnone]

/-- The 1x1 black image: no strategy changes it, every ratio is 0, so
nothing is accepted and the selector falls back to white_gray. -/
def black1 : Img := [[⟨0, 0, 0, 255⟩]]

/-- A 2x2 image, white top row and black bottom row.  The checkerboard
strategy clears the two very light pixels (ratio 1/2, accepted), the
white_gray strategy is the identity (ratio 0, rejected), and the edge
flood fill clears the two light border pixels (ratio 1/2, accepted but
not strictly closer to 0.5), so the selector keeps checkerboard. -/
def checkImg2 : Img :=
  [[⟨255, 255, 255, 255⟩, ⟨255, 255, 255, 255⟩],
   [⟨0, 0, 0, 255⟩, ⟨0, 0, 0, 255⟩]]

/-- Closed instance of C1, exercising both branches: on `checkImg2` the
selector picks the accepted checkerboard candidate (ratio 1/2, in the
band, distance to 0.5 no worse than the other accepted candidate) and
outputs its result; on the 1x1 black image nothing is accepted and the
output is the raw white_gray result. -/
theorem process_single_cat_image_selector_witness :
    pickBest checkImg2 = some (Method.checkerboard, fdiv 2 4) ∧
    acceptedRatio (fdiv 2 4) ∧
    qabs (qsub (fdiv 2 4) (fdiv 1 2)) ≤
      qabs (qsub (ratioOf checkImg2 Method.edge_flood) (fdiv 1 2)) ∧
    process_single_cat_image checkImg2 =
      remove_complex_background checkImg2 Method.checkerboard ∧
    pickBest black1 = none ∧
    process_single_cat_image black1 = remove_complex_background black1 Method.white_gray := by
  have hsome := (process_single_cat_image_selector checkImg2).1 Method.checkerboard
    (fdiv 2 4) (by decide)
  have hnone := (process_single_cat_image_selector black1).2.2 (by decide)
  exact ⟨by decide, hsome.2.1,
    hsome.2.2.2.1 Method.edge_flood (by decide) (by decide),
    hsome.2.2.2.2, hnone.1, hnone.2⟩

/-! ### claim C7: sprite-sheet layout -/

theorem getPx_mapGrid_oob (f : Nat → Nat → Pixel → Pixel) (img : Img) (i j : Nat)
    (h : ¬(i < height img ∧ j < rowLen img i)) :
    getPx (mapGrid f img) i j = getPx img i j := by
  unfold getPx
  rw [mapGrid, getElem?_mapIdxFrom]
  rcases hrow : img[i]? with _ | row
  · rfl
  · have hlt : i < img.length := (List.getElem?_eq_some_iff.1 hrow).1
    have hj : row.length ≤ j := by
      have hnj : ¬ (j < rowLen img i) := fun hlt2 => h ⟨hlt, hlt2⟩
      simp only [rowLen, hrow, Option.getD_some] at hnj
      omega
    simp only [Option.map_some', Option.getD_some]
    rw [List.getElem?_eq_none (by simpa [length_mapIdxFrom] using hj),
      List.getElem?_eq_none hj]

theorem cell_coord_eq {fh : Nat} {a b u : Nat} (hu : u < fh) :
    (b * fh ≤ a * fh + u ∧ a * fh + u < b * fh + fh) ↔ a = b := by
  constructor
  · rintro ⟨h1, h2⟩
    by_contra hne
    rcases Nat.lt_or_ge a b with hab | hab
    · have hm : (a + 1) * fh ≤ b * fh := Nat.mul_le_mul_right _ hab
      rw [Nat.succ_mul] at hm
      omega
    · have hab2 : b + 1 ≤ a := by omega
      have hm : (b + 1) * fh ≤ a * fh := Nat.mul_le_mul_right _ hab2
      rw [Nat.succ_mul] at hm
      omega
  · rintro rfl
    omega

theorem paste_box_iff {c fw fh : Nat} (hc : 0 < c)
    {k i0 u v : Nat} (hu : u < fh) (hv : v < fw) :
    ((i0 / c) * fh ≤ (k / c) * fh + u ∧ (k / c) * fh + u < (i0 / c) * fh + fh ∧
      (i0 % c) * fw ≤ (k % c) * fw + v ∧ (k % c) * fw + v < (i0 % c) * fw + fw) ↔
      k = i0 := by
  constructor
  · rintro ⟨h1, h2, h3, h4⟩
    have e1 : k / c = i0 / c := (cell_coord_eq hu).1 ⟨h1, h2⟩
    have e2 : k % c = i0 % c := (cell_coord_eq hv).1 ⟨h3, h4⟩
    calc k = c * (k / c) + k % c := (Nat.div_add_mod k c).symm
    _ = c * (i0 / c) + i0 % c := by rw [e1, e2]
    _ = i0 := Nat.div_add_mod i0 c
  · rintro rfl
    exact ⟨Nat.le_add_right _ _, by omega, Nat.le_add_right _ _, by omega⟩

theorem widthOf_frame {f : Img} {fh fw : Nat} (hfh : 0 < fh) (hlen : f.length = fh)
    (hrows : ∀ row ∈ f, row.length = fw) : widthOf f = fw := by
  unfold widthOf rowLen
  rcases hrow : f[0]? with _ | row
  · rw [List.getElem?_eq_none_iff] at hrow
    omega
  · obtain ⟨hlt, heq⟩ := List.getElem?_eq_some_iff.1 hrow
    simp only [Option.getD_some]
    exact hrows row (heq ▸ List.getElem_mem hlt)

/-- A paste at the cell of frame `i0` leaves the pixels of any other
cell `k` unchanged. -/
theorem getPx_pasteAt_other {c fw fh : Nat} (hc : 0 < c) (hfh : 0 < fh)
    {sheet f : Img} (hflen : f.length = fh) (hfrows : ∀ row ∈ f, row.length = fw)
    {k i0 u v : Nat} (hu : u < fh) (hv : v < fw) (hne : k ≠ i0) :
    getPx (pasteAt sheet f ((i0 % c) * fw) ((i0 / c) * fh)) ((k / c) * fh + u)
        ((k % c) * fw + v) =
      getPx sheet ((k / c) * fh + u) ((k % c) * fw + v) := by
  by_cases hin : (k / c) * fh + u < height sheet ∧
      (k % c) * fw + v < rowLen sheet ((k / c) * fh + u)
  · rw [pasteAt, getPx_mapGrid _ sheet _ _ hin.1 hin.2]
    rw [if_neg]
    intro hbox
    obtain ⟨h1, h2, h3, h4⟩ := hbox
    rw [height, hflen] at h2
    rw [widthOf_frame hfh hflen hfrows] at h4
    exact hne ((paste_box_iff hc hu hv).1 ⟨h1, h2, h3, h4⟩)
  · exact getPx_mapGrid_oob _ sheet _ _ hin

/-- The paste at frame `i0`'s own cell writes the frame pixel there,
masked by its alpha. -/
theorem getPx_pasteAt_self {c fw fh : Nat} (hc : 0 < c) (hfh : 0 < fh)
    {sheet f : Img} (hflen : f.length = fh) (hfrows : ∀ row ∈ f, row.length = fw)
    {i0 u v : Nat} (hu : u < fh) (hv : v < fw)
    (hY : (i0 / c) * fh + u < height sheet)
    (hX : (i0 % c) * fw + v < rowLen sheet ((i0 / c) * fh + u)) :
    getPx (pasteAt sheet f ((i0 % c) * fw) ((i0 / c) * fh)) ((i0 / c) * fh + u)
        ((i0 % c) * fw + v) =
      (if (getPx f u v).a = 0 then getPx sheet ((i0 / c) * fh + u) ((i0 % c) * fw + v)
        else getPx f u v) := by
  rw [pasteAt, getPx_mapGrid _ sheet _ _ hY hX]
  rw [if_pos]
  · have eu : (i0 / c) * fh + u - (i0 / c) * fh = u := by omega
    have ev : (i0 % c) * fw + v - (i0 % c) * fw = v := by omega
    rw [eu, ev]
  · refine ⟨Nat.le_add_right _ _, ?_, Nat.le_add_right _ _, ?_⟩
    · rw [height, hflen]
      omega
    · rw [widthOf_frame hfh hflen hfrows]
      omega

/-- Frames pasted from index `i0` on do not touch the cells of earlier
indices nor cells past the end of the list. -/
theorem pasteFrames_getPx_outside {c fw fh : Nat} (hc : 0 < c) (hfh : 0 < fh) :
    ∀ (fs : List Img) (i0 : Nat) (sheet : Img),
      (∀ f ∈ fs, f.length = fh ∧ ∀ row ∈ f, row.length = fw) →
      ∀ k u v, u < fh → v < fw → (k < i0 ∨ i0 + fs.length ≤ k) →
      getPx (pasteFrames c fw fh i0 fs sheet) ((k / c) * fh + u) ((k % c) * fw + v) =
        getPx sheet ((k / c) * fh + u) ((k % c) * fw + v) := by
  intro fs
  induction fs with
  | nil => intro i0 sheet hfs k u v hu hv hk; rfl
  | cons f fs ih =>
    intro i0 sheet hfs k u v hu hv hk
    simp only [List.length_cons] at hk
    have hk2 : k < i0 + 1 ∨ (i0 + 1) + fs.length ≤ k := by omega
    have hne : k ≠ i0 := by omega
    show getPx (pasteFrames c fw fh (i0 + 1) fs
      (pasteAt sheet f ((i0 % c) * fw) ((i0 / c) * fh))) _ _ = _
    rw [ih (i0 + 1) _ (fun g hg => hfs g (List.mem_cons_of_mem _ hg)) k u v hu hv hk2]
    exact getPx_pasteAt_other hc hfh (hfs f (List.mem_cons_self _ _)).1
      (hfs f (List.mem_cons_self _ _)).2 hu hv hne

theorem sameShape_pasteFrames (c fw fh : Nat) :
    ∀ (fs : List Img) (i0 : Nat) (sheet : Img),
      sameShape (pasteFrames c fw fh i0 fs sheet) sheet := by
  intro fs
  induction fs with
  | nil => intro i0 sheet; exact ⟨rfl, fun i => rfl⟩
  | cons f fs ih =>
    intro i0 sheet
    obtain ⟨h1, h2⟩ := ih (i0 + 1) (pasteAt sheet f ((i0 % c) * fw) ((i0 / c) * fh))
    exact ⟨h1.trans (height_mapGrid _ sheet), fun i => (h2 i).trans (rowLen_mapGrid _ sheet i)⟩

/-- Frame `j` of the list (pasted as cell `i0 + j`) lands at its own
cell, masked by its alpha, over whatever the sheet held there. -/
theorem pasteFrames_getPx_at {c fw fh : Nat} (hc : 0 < c) (hfh : 0 < fh) :
    ∀ (fs : List Img) (i0 : Nat) (sheet : Img),
      (∀ f ∈ fs, f.length = fh ∧ ∀ row ∈ f, row.length = fw) →
      ∀ (j : Nat) (hj : j < fs.length) (u v : Nat), u < fh → v < fw →
      ((i0 + j) / c) * fh + u < height sheet →
      ((i0 + j) % c) * fw + v < rowLen sheet (((i0 + j) / c) * fh + u) →
      getPx (pasteFrames c fw fh i0 fs sheet) (((i0 + j) / c) * fh + u)
          (((i0 + j) % c) * fw + v) =
        (if (getPx (fs.get ⟨j, hj⟩) u v).a = 0 then
          getPx sheet (((i0 + j) / c) * fh + u) (((i0 + j) % c) * fw + v)
        else getPx (fs.get ⟨j, hj⟩) u v) := by
  intro fs
  induction fs with
  | nil => intro i0 sheet hfs j hj; exact absurd hj (by simp)
  | cons f fs ih =>
    intro i0 sheet hfs j hj u v hu hv hY hX
    show getPx (pasteFrames c fw fh (i0 + 1) fs
      (pasteAt sheet f ((i0 % c) * fw) ((i0 / c) * fh))) _ _ = _
    cases j with
    | zero =>
      rw [pasteFrames_getPx_outside hc hfh fs (i0 + 1) _
        (fun g hg => hfs g (List.mem_cons_of_mem _ hg)) (i0 + 0) u v hu hv (by omega)]
      have e0 : i0 + 0 = i0 := rfl
      rw [e0] at hY hX ⊢
      exact getPx_pasteAt_self hc hfh (hfs f (List.mem_cons_self _ _)).1
        (hfs f (List.mem_cons_self _ _)).2 hu hv hY hX
    | succ j =>
      have e1 : i0 + (j + 1) = (i0 + 1) + j := by omega
      rw [e1] at hY hX ⊢
      have hsh := sameShape_pasteFrames c fw fh [] 0 sheet
      have hY2 : ((i0 + 1 + j) / c) * fh + u <
          height (pasteAt sheet f ((i0 % c) * fw) ((i0 / c) * fh)) := by
        rw [height, pasteAt]
        rw [show (mapGrid (fun y x p =>
          if (i0 / c) * fh ≤ y ∧ y < (i0 / c) * fh + height f ∧
              (i0 % c) * fw ≤ x ∧ x < (i0 % c) * fw + widthOf f then
            if (getPx f (y - (i0 / c) * fh) (x - (i0 % c) * fw)).a = 0 then p
            else getPx f (y - (i0 / c) * fh) (x - (i0 % c) * fw)
          else p) sheet).length = sheet.length from height_mapGrid _ sheet]
        exact hY
      have hX2 : ((i0 + 1 + j) % c) * fw + v <
          rowLen (pasteAt sheet f ((i0 % c) * fw) ((i0 / c) * fh))
            (((i0 + 1 + j) / c) * fh + u) := by
        rw [pasteAt, rowLen_mapGrid]
        exact hX
      rw [ih (i0 + 1) _ (fun g hg => hfs g (List.mem_cons_of_mem _ hg)) j
        (by simpa using Nat.lt_of_succ_lt_succ hj) u v hu hv hY2 hX2]
      rw [getPx_pasteAt_other hc hfh (hfs f (List.mem_cons_self _ _)).1
        (hfs f (List.mem_cons_self _ _)).2 hu hv (by omega)]
      rfl

theorem getPx_replicate_clear (hh ww y x : Nat) :
    getPx (List.replicate hh (List.replicate ww clearPx)) y x = clearPx := by
  unfold getPx
  rw [List.getElem?_replicate]
  split_ifs with hy
  · simp only [Option.getD_some]
    rw [List.getElem?_replicate]
    split_ifs with hx
    · rfl
    · rfl
  · rfl

theorem rowLen_replicate (hh ww i : Nat) (hi : i < hh) :
    rowLen (List.replicate hh (List.replicate ww clearPx)) i = ww := by
  unfold rowLen
  rw [List.getElem?_replicate, if_pos hi]
  simp

theorem coord_lt {a rows u fh : Nat} (ha : a < rows) (hu : u < fh) :
    a * fh + u < rows * fh := by
  have h1 : a * fh + u < (a + 1) * fh := by
    rw [Nat.succ_mul]
    omega
  have h2 : (a + 1) * fh ≤ rows * fh := Nat.mul_le_mul_right _ ha
  omega

theorem cell_row_lt {j n c : Nat} (hc : 0 < c) (hj : j < n) :
    j / c < (n + c - 1) / c := by
  have h1 : j / c ≤ (n - 1) / c := Nat.div_le_div_right (by omega)
  have h2 : (n + c - 1) / c = (n - 1) / c + 1 := by
    have he : n + c - 1 = (n - 1) + c := by omega
    rw [he, Nat.add_div_right _ hc]
  omega

/-- C7: `create_sprite_sheet` builds a `columns*fw` by
`ceil(n/columns)*fh` canvas (the integer form `(n+columns-1)/columns` of
the ceiling), pastes frame `i` at cell `(i % columns, i / columns)`
masked by its own alpha over the transparent fill, and leaves every cell
with no frame fully transparent. -/
theorem create_sprite_sheet_layout (frames : List Img) (columns fw fh : Nat)
    (hc : 0 < columns) (hfw : 0 < fw) (hfh : 0 < fh)
    (hframes : ∀ f ∈ frames, f.length = fh ∧ ∀ row ∈ f, row.length = fw) :
    height (create_sprite_sheet frames columns fw fh) =
      ((frames.length + columns - 1) / columns) * fh ∧
    (∀ i, i < ((frames.length + columns - 1) / columns) * fh →
      rowLen (create_sprite_sheet frames columns fw fh) i = columns * fw) ∧
    (∀ (j : Nat) (hj : j < frames.length) (u v : Nat), u < fh → v < fw →
      getPx (create_sprite_sheet frames columns fw fh)
          ((j / columns) * fh + u) ((j % columns) * fw + v) =
        (if (getPx (frames.get ⟨j, hj⟩) u v).a = 0 then clearPx
          else getPx (frames.get ⟨j, hj⟩) u v)) ∧
    (∀ k, frames.length ≤ k → k < columns * ((frames.length + columns - 1) / columns) →
      ∀ u v, u < fh → v < fw →
      getPx (create_sprite_sheet frames columns fw fh)
          ((k / columns) * fh + u) ((k % columns) * fw + v) = clearPx) := by
  have hsh := sameShape_pasteFrames columns fw fh frames 0
    (List.replicate (((frames.length + columns - 1) / columns) * fh)
      (List.replicate (columns * fw) clearPx))
  refine ⟨?_, ?_, ?_, ?_⟩
  · show (pasteFrames columns fw fh 0 frames _).length = _
    rw [hsh.1, List.length_replicate]
  · intro i hi
    show rowLen (pasteFrames columns fw fh 0 frames _) i = _
    rw [hsh.2 i, rowLen_replicate _ _ _ hi]
  · intro j hj u v hu hv
    have hYc : (j / columns) * fh + u <
        ((frames.length + columns - 1) / columns) * fh :=
      coord_lt (cell_row_lt hc hj) hu
    have hXc : (j % columns) * fw + v < columns * fw :=
      coord_lt (Nat.mod_lt j hc) hv
    have hY : ((0 + j) / columns) * fh + u <
        height (List.replicate (((frames.length + columns - 1) / columns) * fh)
          (List.replicate (columns * fw) clearPx)) := by
      rw [Nat.zero_add, height, List.length_replicate]
      exact hYc
    have hX : ((0 + j) % columns) * fw + v <
        rowLen (List.replicate (((frames.length + columns - 1) / columns) * fh)
          (List.replicate (columns * fw) clearPx)) (((0 + j) / columns) * fh + u) := by
      rw [Nat.zero_add, rowLen_replicate _ _ _ hYc]
      exact hXc
    have hmain := pasteFrames_getPx_at hc hfh frames 0
      (List.replicate (((frames.length + columns - 1) / columns) * fh)
        (List.replicate (columns * fw) clearPx)) hframes j hj u v hu hv hY hX
    rw [Nat.zero_add] at hmain
    show getPx (pasteFrames columns fw fh 0 frames _) _ _ = _
    rw [hmain, getPx_replicate_clear]
  · intro k hk1 hk2 u v hu hv
    have hmain := pasteFrames_getPx_outside hc hfh frames 0
      (List.replicate (((frames.length + columns - 1) / columns) * fh)
        (List.replicate (columns * fw) clearPx)) hframes k u v hu hv (by omega)
    show getPx (pasteFrames columns fw fh 0 frames _) _ _ = _
    rw [hmain, getPx_replicate_clear]

/-- A 1x1 frame used to instantiate the layout theorem. -/
def sampleFrame : Img := [[⟨1, 2, 3, 255⟩]]

/-- Closed instance of C7: ten 1x1 frames at 4 columns give a 4x3 sheet;
frame 9 lands at cell (1, 2); cells 10 and 11 stay fully transparent. -/
theorem create_sprite_sheet_layout_witness :
    height (create_sprite_sheet (List.replicate 10 sampleFrame) 4 1 1) = 3 ∧
    getPx (create_sprite_sheet (List.replicate 10 sampleFrame) 4 1 1)
      ((9 / 4) * 1 + 0) ((9 % 4) * 1 + 0) = ⟨1, 2, 3, 255⟩ ∧
    getPx (create_sprite_sheet (List.replicate 10 sampleFrame) 4 1 1)
      ((10 / 4) * 1 + 0) ((10 % 4) * 1 + 0) = clearPx ∧
    getPx (create_sprite_sheet (List.replicate 10 sampleFrame) 4 1 1)
      ((11 / 4) * 1 + 0) ((11 % 4) * 1 + 0) = clearPx := by
  have h := create_sprite_sheet_layout (List.replicate 10 sampleFrame) 4 1 1
    (by decide) (by decide) (by decide) (by decide)
  refine ⟨by simpa using h.1, ?_, ?_, ?_⟩
  · have h9 := h.2.2.1 9 (by simp) 0 0 (by decide) (by decide)
    simpa [sampleFrame, getPx] using h9
  · exact h.2.2.2 10 (by simp) (by simp) 0 0 (by decide) (by decide)
  · exact h.2.2.2 11 (by simp) (by simp) 0 0 (by decide) (by decide)
